import Mathlib

/-!
# Verification of the `clear_urls_bot` URL-sanitization rule engine

Shallow embedding of `src/sanitizer.rs`. Strings are modelled as lists of
characters (`Str`); compiled regexes are modelled as records of abstract
functions (`is_match`, capture group 1, replace-all-with-empty), since the
engine only ever uses those three operations. The URL type models the
subset of the `url` crate behaviour exercised by the engine: absolute
`scheme://host...` URLs with path, raw query and raw fragment components,
form-urlencoded query-pair decoding/encoding restricted to single-byte
percent escapes (multi-byte UTF-8 escapes are outside the modelled domain).
-/

set_option maxRecDepth 20000

/-- Character sequences, the model of Rust `String`/`&str`. -/
abbrev Str := List Char

/-- Whether `s` starts with `pat`; `isPrefixB pat s` models (Rust `str::starts_with`). -/
def isPrefixB : Str → Str → Bool
  | [], _ => true
  | _ :: _, [] => false
  | a :: as_, b :: bs => a = b && isPrefixB as_ bs

/-- Whether `s` contains `pat` as a contiguous substring;
(Rust `str::contains`). -/
def isInfixB (pat : Str) : Str → Bool
  | [] => isPrefixB pat []
  | c :: rest => isPrefixB pat (c :: rest) || isInfixB pat rest

/-- Split `s` at the first occurrence of `pat` (nonempty), returning the
part before and the part after; `none` if `pat` does not occur. -/
def splitOnce (pat : Str) : Str → Option (Str × Str)
  | [] => none
  | c :: rest =>
    if isPrefixB pat (c :: rest) then some ([], (c :: rest).drop pat.length)
    else match splitOnce pat rest with
      | some (a, b) => some (c :: a, b)
      | none => none

/-- Split a string on every occurrence of the character `c`
(Rust `str::split(c)`); always returns at least one piece. -/
def splitChar (c : Char) : Str → List Str
  | [] => [[]]
  | a :: rest =>
    if a = c then [] :: splitChar c rest
    else match splitChar c rest with
      | h :: t => (a :: h) :: t
      | [] => [[a]]

/-- Re-join pieces with the separator `c`; inverse of `splitChar`. -/
def joinChar (c : Char) : List Str → Str
  | [] => []
  | [p] => p
  | p :: ps => p ++ c :: joinChar c ps

/-- Hexadecimal digit test (both cases), as accepted by the percent decoder. -/
def isHexB (c : Char) : Bool :=
  (48 ≤ c.toNat && c.toNat ≤ 57) || (65 ≤ c.toNat && c.toNat ≤ 70) ||
    (97 ≤ c.toNat && c.toNat ≤ 102)

/-- Numeric value of a hexadecimal digit. -/
def hexVal (c : Char) : Nat :=
  if 97 ≤ c.toNat then c.toNat - 87
  else if 65 ≤ c.toNat then c.toNat - 55
  else c.toNat - 48

/-- Upper-case hexadecimal digit for `d < 16`. -/
def hexDigitUpper (d : Nat) : Char :=
  if d < 10 then Char.ofNat (48 + d) else Char.ofNat (55 + d)

/-- Form-urlencoded decoding as performed by `url::Url::query_pairs`:
`+` becomes a space, `%XY` (two hex digits) becomes the corresponding
byte, malformed escapes pass through verbatim. -/
def decodeStr : Str → Str
  | [] => []
  | c :: rest =>
    if c = '+' then ' ' :: decodeStr rest
    else if c = '%' then
      match rest with
      | a :: b :: rest₂ =>
        if isHexB a && isHexB b then
          Char.ofNat (16 * hexVal a + hexVal b) :: decodeStr rest₂
        else '%' :: decodeStr (a :: b :: rest₂)
      | [a] => '%' :: decodeStr [a]
      | [] => ['%']
    else c :: decodeStr rest

/-- Characters emitted verbatim by `form_urlencoded::Serializer`
(ASCII alphanumerics and `*-._`). -/
def isFormSafe (c : Char) : Bool :=
  c.isAlphanum || c = '*' || c = '-' || c = '.' || c = '_'

/-- Form-urlencoded encoding of one character, as performed by
`form_urlencoded::Serializer::append_pair`. Characters above one byte are
kept verbatim in the model (the real encoder percent-encodes their UTF-8
bytes; both sides satisfy decode-after-encode identity, which is the
property the engine relies on). -/
def encodeChar (c : Char) : Str :=
  if isFormSafe c then [c]
  else if c = ' ' then ['+']
  else if c.toNat < 256 then
    ['%', hexDigitUpper (c.toNat / 16), hexDigitUpper (c.toNat % 16)]
  else [c]

/-- Form-urlencoded encoding of a string. -/
def encodeStr : Str → Str
  | [] => []
  | c :: rest => encodeChar c ++ encodeStr rest

/-- Decode a raw query string into key/value pairs
(`url::Url::query_pairs`): split on `&`, skip empty pieces, split each
piece at its first `=` (missing `=` gives an empty value), decode both
sides. -/
def decodePairs (q : Str) : List (Str × Str) :=
  ((splitChar '&' q).filter (fun p => p ≠ [])).map fun piece =>
    match splitOnce ['='] piece with
    | some (k, v) => (decodeStr k, decodeStr v)
    | none => (decodeStr piece, [])

/-- Serialize key/value pairs back to a query string
(`form_urlencoded::Serializer` with repeated `append_pair` then `finish`). -/
def encodePairs : List (Str × Str) → Str
  | [] => []
  | [(k, v)] => encodeStr k ++ '=' :: encodeStr v
  | (k, v) :: ps => encodeStr k ++ '=' :: encodeStr v ++ '&' :: encodePairs ps

/-- The model of a parsed `url::Url`: absolute URL with nonempty scheme and
host, a path, and optional raw query and fragment strings. -/
structure Url where
  scheme : Str
  host : Str
  path : Str
  query : Option Str
  fragment : Option Str
deriving DecidableEq, Repr

/-- An optional URL component rendered with its leading delimiter. -/
def optPart (c : Char) : Option Str → Str
  | some s => c :: s
  | none => []

/-- Serialization (`url::Url::to_string`). -/
def Url.toStr (u : Url) : Str :=
  u.scheme ++ ':' :: '/' :: '/' ::
    (u.host ++ (u.path ++ (optPart '?' u.query ++ optPart '#' u.fragment)))

/-- Valid scheme characters (ASCII letters; the modelled subset). -/
def isSchemeChar (c : Char) : Bool := c.isAlpha

/-- Characters allowed in the host component (everything up to the first
path/query/fragment delimiter). -/
def hostChar (c : Char) : Bool := c ≠ '/' && c ≠ '?' && c ≠ '#'

/-- Split everything after the host into the part before the first `#`
and the fragment after it. -/
def parseFrag (rest₂ : Str) : Str × Option Str :=
  match splitOnce ['#'] rest₂ with
  | some (a, b) => (a, some b)
  | none => (rest₂, none)

/-- Split the pre-fragment part into the path and the query after the
first `?`. -/
def parseQueryPart (main : Str) : Str × Option Str :=
  match splitOnce ['?'] main with
  | some (a, b) => (a, some b)
  | none => (main, none)

/-- Model of `url::Url::parse` for absolute `scheme://host...` URLs:
scheme before the first `://`, nonempty host up to the first `/`, `?` or
`#`, path normalized to `/` when absent (special-scheme behaviour),
query between `?` and `#`, fragment after the first `#`. Strings without
a literal `://` (for instance percent-encoded URLs) do not parse. -/
def Url.parse (s : Str) : Option Url :=
  match splitOnce [':', '/', '/'] s with
  | none => none
  | some (scheme, rest) =>
    if scheme = [] || !scheme.all isSchemeChar then none
    else if rest.takeWhile hostChar = [] then none
    else
      let mf := parseFrag (rest.dropWhile hostChar)
      let pqq := parseQueryPart mf.1
      some ⟨scheme, rest.takeWhile hostChar,
        if pqq.1 = [] then ['/'] else pqq.1, pqq.2, mf.2⟩

/-- Model of `url::Url::path_segments().collect()`: the path without its leading
slash, split on `/`. -/
def Url.pathSegments (u : Url) : List Str := splitChar '/' (u.path.drop 1)

/-- Well-formedness of a URL value: the invariant satisfied by every URL
the engine manipulates, sufficient for parse/serialize round-tripping. -/
def Url.WF (u : Url) : Prop :=
  u.scheme ≠ [] ∧ u.scheme.all isSchemeChar = true ∧
  u.host ≠ [] ∧ u.host.all hostChar = true ∧
  (∃ p, u.path = '/' :: p) ∧
  (∀ x ∈ u.path, x ≠ '?' ∧ x ≠ '#') ∧
  (∀ q, u.query = some q → ∀ x ∈ q, x ≠ '#')

/-- A compiled regex as used by the engine: the engine only calls
`is_match`, `captures(..).get(1)` and `replace_all(.., "")`, so a regex is
modelled by those three functions. -/
structure CRegex where
  is_match : Str → Bool
  capture1 : Str → Option Str
  replaceAll : Str → Str

/-- The `CompiledProvider` struct from `sanitizer.rs`. -/
structure CompiledProvider where
  name : Str
  url_pattern : CRegex
  rules : List CRegex
  exceptions : List CRegex
  raw_rules : List CRegex
  redirections : List CRegex
  referral_marketing : List CRegex
  force_redirection : Bool

/-- The `crate::models::CustomRule` struct (fields used by the sanitizer). -/
structure CustomRule where
  id : Int
  user_id : Int
  pattern : Str

/-- State threaded through one pass of the rewrite loop: the current URL,
the overall `changed` flag and the `current_iteration_changed` flag. -/
structure PassState where
  url : Url
  changed : Bool
  iterChanged : Bool
deriving DecidableEq, Repr

/-- Model of `clean_github_url` (sanitizer.rs:164-186): on host exactly
`github.com` with more than two path segments and a path differing from
`/owner/repo`, truncate the path and drop query and fragment. -/
def cleanGithubUrl (url : Url) : Url × Bool :=
  if url.host = "github.com".data then
    match url.pathSegments with
    | o :: r :: _ :: _ =>
      let newPath := '/' :: (o ++ '/' :: r)
      if url.path ≠ newPath then
        ({ url with path := newPath, query := none, fragment := none }, true)
      else (url, false)
    | _ => (url, false)
  else (url, false)

/-- The custom-rule pass of `sanitize` (sanitizer.rs:211-241): drop every
query pair whose decoded key contains some custom rule pattern as a
substring; if anything was dropped, re-serialize the kept pairs (or clear
the query when nothing is kept). -/
def applyCustomRules (custom_rules : List CustomRule) (url : Url) : Url × Bool :=
  match url.query with
  | none => (url, false)
  | some q =>
    let pairs := decodePairs q
    let kept := pairs.filter fun kv =>
      !custom_rules.any fun r => isInfixB r.pattern kv.1
    let custom_changed := pairs.any fun kv =>
      custom_rules.any fun r => isInfixB r.pattern kv.1
    if custom_changed then
      if kept ≠ [] then ({ url with query := some (encodePairs kept) }, true)
      else ({ url with query := none }, true)
    else (url, false)

/-- The hard-coded aggressive tracker list (sanitizer.rs:267-269). -/
def aggressiveTrackers : List Str :=
  ["gs_lcrp".data, "oq".data, "sourceid".data, "client".data, "bih".data,
    "biw".data, "ved".data, "ei".data, "iflsig".data, "adgrpid".data,
    "nw".data, "matchtype".data]

/-- The aggressive fallback pass of `sanitize` (sanitizer.rs:261-289). -/
def aggressivePass (url : Url) : Url × Bool :=
  match url.query with
  | none => (url, false)
  | some q =>
    let pairs := decodePairs q
    let kept := pairs.filter fun kv =>
      !aggressiveTrackers.any fun t => decide (t = kv.1)
    let aggressive_changed := pairs.any fun kv =>
      aggressiveTrackers.any fun t => decide (t = kv.1)
    if aggressive_changed then
      if kept ≠ [] then ({ url with query := some (encodePairs kept) }, true)
      else ({ url with query := none }, true)
    else (url, false)

/-- Redirection handling (sanitizer.rs:333-346): the first redirection
regex whose capture group 1 parses as a URL replaces the whole URL; a
capture that fails `Url::parse` is skipped (note: the capture is parsed
verbatim, it is not percent-decoded first). -/
def findRedirection : List CRegex → Str → Option Url
  | [], _ => none
  | r :: rs, s =>
    match r.capture1 s with
    | some cap =>
      match Url.parse cap with
      | some u => some u
      | none => findRedirection rs s
    | none => findRedirection rs s

/-- One step of the query-pair fold in `clean_url_in_place`
(sanitizer.rs:357-391). `recf` stands for the recursive call to
`clean_url_in_place` on nested URLs. Accumulates (kept pairs reversed
order preserved via append, params_removed, inner-value-changed). -/
def queryStep (recf : Url → Url × Bool) (p : CompiledProvider)
    (acc : List (Str × Str) × Bool × Bool) (kv : Str × Str) :
    List (Str × Str) × Bool × Bool :=
  let keep := !(p.rules.any fun r => r.is_match kv.1) &&
    !(p.referral_marketing.any fun r => r.is_match kv.1)
  if keep then
    let vres :=
      if isPrefixB "http".data kv.2 then
        match Url.parse kv.2 with
        | some inner =>
          let ir := recf inner
          if ir.2 then (ir.1.toStr, true) else (kv.2, false)
        | none => (kv.2, false)
      else (kv.2, false)
    (acc.1 ++ [(kv.1, vres.1)], acc.2.1, acc.2.2 || vres.2)
  else (acc.1, true, acc.2.2)

/-- Query-parameter filtering for one provider (sanitizer.rs:351-402).
Note that the rebuilt query (including recursively cleaned values) is only
written back when at least one parameter was removed; a pure value rewrite
is discarded while still setting the overall `changed` flag. -/
def processQuery (recf : Url → Url × Bool) (p : CompiledProvider)
    (st : PassState) : PassState :=
  match st.url.query with
  | none => st
  | some q =>
    let res := (decodePairs q).foldl (queryStep recf p) ([], false, false)
    if res.2.1 then
      { url := { st.url with
          query := if res.1 ≠ [] then some (encodePairs res.1) else none },
        changed := true, iterChanged := true }
    else { st with changed := st.changed || res.2.2 }

/-- Fragment handling (sanitizer.rs:405-421): a fragment containing `=` is
reparsed as a synthetic query on `http://localhost` and recursively
cleaned; on change the resulting query (or its absence) becomes the new
fragment. -/
def processFragment (recf : Url → Url × Bool) (st : PassState) : PassState :=
  match st.url.fragment with
  | none => st
  | some frag =>
    if isInfixB ['='] frag then
      match Url.parse ("http://localhost?".data ++ frag) with
      | some fragUrl =>
        let fr := recf fragUrl
        if fr.2 then
          { url := { st.url with fragment := fr.1.query },
            changed := true, iterChanged := true }
        else st
      | none => st
    else st

/-- Raw-rule substitution (sanitizer.rs:423-440): each raw rule deletes its
matches from the full serialized URL; if the string changed and re-parses,
the parsed result replaces the URL. -/
def processRawRules (p : CompiledProvider) (st : PassState) : PassState :=
  let s₀ := st.url.toStr
  let res := p.raw_rules.foldl
    (fun (acc : Str × Bool) rr =>
      let ns := rr.replaceAll acc.1
      if ns ≠ acc.1 then (ns, true) else acc)
    (s₀, false)
  if res.2 then
    match Url.parse res.1 with
    | some nu => { url := nu, changed := true, iterChanged := true }
    | none => st
  else st

/-- Processing of one provider inside one pass (sanitizer.rs:317-441).
`urlStr` is the serialization captured at the start of the pass: provider
activation, the exception check and redirection matching all use it, while
query/fragment/raw-rule handling uses the current URL in `st`. -/
def processProviderStep (recf : Url → Url × Bool) (urlStr : Str)
    (st : PassState) (p : CompiledProvider) : PassState :=
  if p.url_pattern.is_match urlStr || p.name = "generic".data then
    if p.exceptions.any (fun e => e.is_match urlStr) then st
    else
      match findRedirection p.redirections urlStr with
      | some newUrl => { url := newUrl, changed := true, iterChanged := true }
      | none =>
        processRawRules p (processFragment recf (processQuery recf p st))
  else st

/-- One full pass over all providers with the pass-start serialization
`urlStr`. -/
def runPass (recf : Url → Url × Bool) (providers : List CompiledProvider)
    (urlStr : Str) (st : PassState) : PassState :=
  providers.foldl (processProviderStep recf urlStr) st

/-- The outer `while iterations < MAX_ITERATIONS` loop
(sanitizer.rs:311-449), with the number of executed passes returned as the
third component. A pass that changes nothing ends the loop. -/
def cleanLoop (recf : Url → Url × Bool) (providers : List CompiledProvider) :
    Nat → Url → Bool → Url × Bool × Nat
  | 0, url, changed => (url, changed, 0)
  | n + 1, url, changed =>
    let st := runPass recf providers url.toStr ⟨url, changed, false⟩
    if st.iterChanged then
      let r := cleanLoop recf providers n st.url st.changed
      (r.1, r.2.1, r.2.2 + 1)
    else (st.url, st.changed, 1)

/-- Model of `clean_url_in_place` (sanitizer.rs:306-451). The Rust recursion on
nested query values and fragments carries no explicit depth bound; the
model makes the recursion depth a fuel parameter `fuel` (exhausted fuel
returns the URL unchanged), while the outer loop keeps its genuine
constant bound of 5. -/
def cleanUrlInPlace (providers : List CompiledProvider) :
    Nat → Url → Url × Bool
  | 0, url => (url, false)
  | fuel + 1, url =>
    let r := cleanLoop (fun v => cleanUrlInPlace providers fuel v)
      providers 5 url false
    (r.1, r.2.1)

/-- Model of `sanitize` (sanitizer.rs:189-303): scheme-prefix normalization, parse,
ignored-domain check, GitHub special case, custom-rule pass, provider
identification on the original text, extended rewrite, aggressive
fallback pass, and result assembly. -/
def sanitize (providers : List CompiledProvider) (fuel : Nat) (text : Str)
    (custom_rules : List CustomRule) (ignored_domains : List Str) :
    Option (Str × Str) :=
  let url_to_parse :=
    if !isInfixB "://".data text && !isPrefixB "mailto:".data text then
      "http://".data ++ text
    else text
  match Url.parse url_to_parse with
  | none => none
  | some url₀ =>
    if ignored_domains.any (fun d => isInfixB d url₀.host) then none
    else
      let gh := cleanGithubUrl url₀
      let name₀ := if gh.2 then "GitHub (Repo Root)".data else "Custom/Other".data
      let cu := applyCustomRules custom_rules gh.1
      let provider_name :=
        match providers.find? (fun p => p.url_pattern.is_match text) with
        | some p => p.name
        | none => name₀
      let cl := cleanUrlInPlace providers fuel cu.1
      let ag := aggressivePass cl.1
      let changed := cl.2 || ag.2
      if changed || cu.2 || gh.2 then some (ag.1.toStr, provider_name)
      else none

/-- The `RawProvider` struct as deserialized from the ruleset document
(sanitizer.rs:20-37), all fields defaulted when absent. -/
structure RawProvider where
  urlPattern : Str
  rules : List Str
  exceptions : List Str
  rawRules : List Str
  redirections : List Str
  referralMarketing : List Str
  forceRedirection : Bool

/-- The `ClearUrlsData` struct (sanitizer.rs:39-42); the provider map is modelled as
an association list in iteration order. -/
structure ClearUrlsData where
  providers : List (Str × RawProvider)

/-- Provider compilation (sanitizer.rs:85-111), parameterized by the regex
compiler `rc` (Rust `Regex::new`, `none` on compile failure): providers
with empty or uncompilable `urlPattern` are dropped, individual bad rule
strings are dropped from their lists. -/
def compileProviders (rc : Str → Option CRegex) (data : ClearUrlsData) :
    List CompiledProvider :=
  data.providers.filterMap fun np =>
    if np.2.urlPattern = [] then none
    else
      match rc np.2.urlPattern with
      | none => none
      | some upat =>
        some (CompiledProvider.mk np.1 upat (np.2.rules.filterMap rc)
          (np.2.exceptions.filterMap rc) (np.2.rawRules.filterMap rc)
          (np.2.redirections.filterMap rc)
          (np.2.referralMarketing.filterMap rc) np.2.forceRedirection)

/-- Model of `refresh` (sanitizer.rs:76-125) as a state-passing function: `fetched`
is the outcome of the network fetch, `parseDoc` models
`serde_json::from_str::<ClearUrlsData>` (`none` when the document is not
valid JSON or lacks a usable providers mapping). The second component is
the provider store after the call. -/
def refresh (rc : Str → Option CRegex) (parseDoc : Str → Option ClearUrlsData)
    (fetched : Except String Str) (store : List CompiledProvider) :
    Except String Unit × List CompiledProvider :=
  match fetched with
  | .error e => (.error e, store)
  | .ok body =>
    match parseDoc body with
    | none => (.error "Failed to parse ClearURLs JSON", store)
    | some data => (.ok (), compileProviders rc data)

/-! ## Concrete fixtures used by the example-based claims -/

/-- A compiled regex that never matches and never captures. -/
def inertRegex : CRegex := ⟨fun _ => false, fun _ => none, id⟩

/-- Model of the compiled rule regex `utm_.*` applied to parameter names. -/
def utmRule : CRegex := ⟨fun k => isInfixB "utm_".data k, fun _ => none, id⟩

/-- The catch-all provider named `generic` stripping `utm_*` parameters. -/
def genericProvider : CompiledProvider :=
  ⟨"generic".data, ⟨fun _ => true, fun _ => none, id⟩, [utmRule], [], [], [],
    [], false⟩

/-- Model of a redirection regex `https://redir\.test/go\?u=([^&]+)`:
matches serialized URLs of the `redir.test` wrapper and captures the raw
(still percent-encoded) contents of the `u` parameter as group 1. -/
def redirRegex : CRegex :=
  ⟨fun s => isPrefixB "https://redir.test/go?u=".data s,
    fun s =>
      if isPrefixB "https://redir.test/go?u=".data s then
        some ((s.drop 24).takeWhile fun c => c ≠ '&')
      else none,
    id⟩

/-- The redirection provider of spec Example 5. -/
def redirProvider : CompiledProvider :=
  ⟨"redir".data, ⟨fun s => isInfixB "redir.test".data s, fun _ => none, id⟩,
    [], [], [], [redirRegex], [], false⟩

/-- Input URL of spec Example 5. -/
def exRedirInput : Str :=
  "https://redir.test/go?u=https%3A%2F%2Ftarget.test%2F%3Futm_source%3Dx".data

/-- Provider `B` of the C2 counterexample: strips the `sid` parameter of
`a.test` URLs. -/
def provB : CompiledProvider :=
  ⟨"B".data, ⟨fun s => isInfixB "a.test".data s, fun _ => none, id⟩,
    [⟨fun k => decide (k = "sid".data), fun _ => none, id⟩], [], [], [], [],
    false⟩

/-- Provider `A` of the C2 counterexample: an exception matching exactly
`http://a.test/?x=2`, and a rule stripping the `x` parameter. -/
def provA : CompiledProvider :=
  ⟨"A".data, ⟨fun s => isInfixB "a.test".data s, fun _ => none, id⟩,
    [⟨fun k => decide (k = "x".data), fun _ => none, id⟩],
    [⟨fun s => decide (s = "http://a.test/?x=2".data), fun _ => none, id⟩],
    [], [], [], false⟩

/-- Parsed input URL of the C2 counterexample. -/
def exC2Url : Url :=
  ⟨"http".data, "a.test".data, "/".data, some "sid=1&x=2".data, none⟩

/-- Input of the C3 counterexample: a kept parameter whose value is itself
a URL carrying a `utm_source` parameter. -/
def exC3Input : Str := "https://a.test/?next=http://b.test/?utm_source=1".data

/-! ## Lemmas about the string primitives -/

theorem isPrefixB_self_append (p t : Str) : isPrefixB p (p ++ t) = true := by
  induction p with
  | nil => rfl
  | cons a as ih => simp [isPrefixB, ih]

theorem isPrefixB_cons_of_ne (d c : Char) (pat s : Str) (h : c ≠ d) :
    isPrefixB (d :: pat) (c :: s) = false := by
  simp only [isPrefixB, Bool.and_eq_false_iff, decide_eq_false_iff_not]
  exact Or.inl fun he => h he.symm

theorem splitOnce_append_not_mem (d : Char) (pat a b : Str)
    (h : ∀ x ∈ a, x ≠ d) :
    splitOnce (d :: pat) (a ++ d :: (pat ++ b)) = some (a, b) := by
  induction a with
  | nil =>
    rw [List.nil_append, splitOnce]
    have hpre : isPrefixB (d :: pat) (d :: (pat ++ b)) = true := by
      simpa [isPrefixB] using isPrefixB_self_append pat b
    rw [hpre]
    simp [List.drop_left]
  | cons x xs ih =>
    have hx : x ≠ d := h x (by simp)
    rw [List.cons_append, splitOnce,
      isPrefixB_cons_of_ne d x pat (xs ++ d :: (pat ++ b)) hx,
      ih fun y hy => h y (by simp [hy])]
    simp

theorem splitOnce_none_of_not_mem (d : Char) (pat s : Str)
    (h : ∀ x ∈ s, x ≠ d) : splitOnce (d :: pat) s = none := by
  induction s with
  | nil => rfl
  | cons c rest ih =>
    rw [splitOnce, isPrefixB_cons_of_ne d c pat rest (h c (by simp)),
      ih fun y hy => h y (by simp [hy])]
    simp

theorem splitOnce_char_inv (d : Char) (s : Str) :
    ∀ a b, splitOnce [d] s = some (a, b) →
      s = a ++ d :: b ∧ ∀ x ∈ a, x ≠ d := by
  induction s with
  | nil => intro a b h; simp [splitOnce] at h
  | cons c rest ih =>
    intro a b h
    rw [splitOnce] at h
    by_cases hc : c = d
    · subst hc
      have hpre : isPrefixB [c] (c :: rest) = true := by simp [isPrefixB]
      rw [if_pos hpre] at h
      simp only [List.length_cons, List.length_nil, Nat.zero_add,
        List.drop_succ_cons, List.drop_zero, Option.some.injEq,
        Prod.mk.injEq] at h
      obtain ⟨ha, hb⟩ := h
      subst ha; subst hb
      exact ⟨rfl, by simp⟩
    · rw [isPrefixB_cons_of_ne d c [] rest hc] at h
      simp only [Bool.false_eq_true, if_false] at h
      cases hsp : splitOnce [d] rest with
      | none => rw [hsp] at h; exact absurd h (by simp)
      | some ab =>
        obtain ⟨a₂, b₂⟩ := ab
        rw [hsp] at h
        simp only [Option.some.injEq, Prod.mk.injEq] at h
        obtain ⟨ha, hb⟩ := h
        obtain ⟨hrest, hmem⟩ := ih a₂ b₂ hsp
        subst ha; subst hb
        refine ⟨by simp [hrest], ?_⟩
        intro x hx
        rcases List.mem_cons.mp hx with hx | hx
        · exact hx ▸ hc
        · exact hmem x hx

theorem takeWhile_append_of_all (pred : Char → Bool) (a : Str) (y : Char)
    (z : Str) (ha : ∀ x ∈ a, pred x = true) (hy : pred y = false) :
    (a ++ y :: z).takeWhile pred = a := by
  induction a with
  | nil => simp [List.takeWhile_cons, hy]
  | cons x xs ih =>
    have hx : pred x = true := ha x (by simp)
    have ihx := ih fun t ht => ha t (by simp [ht])
    simp [List.takeWhile_cons, hx, ihx]

theorem splitChar_ne_nil (c : Char) (s : Str) : splitChar c s ≠ [] := by
  induction s with
  | nil => simp [splitChar]
  | cons a rest ih =>
    rw [splitChar]
    by_cases hac : a = c
    · simp [hac]
    · rw [if_neg hac]
      cases h : splitChar c rest with
      | nil => exact absurd h ih
      | cons h₂ t => simp

theorem joinChar_splitChar (c : Char) (s : Str) :
    joinChar c (splitChar c s) = s := by
  induction s with
  | nil => rfl
  | cons a rest ih =>
    rw [splitChar]
    by_cases hac : a = c
    · rw [if_pos hac]
      cases h : splitChar c rest with
      | nil => exact absurd h (splitChar_ne_nil c rest)
      | cons p ps =>
        rw [h] at ih
        subst hac
        simp [joinChar, ih]
    · rw [if_neg hac]
      cases h : splitChar c rest with
      | nil => exact absurd h (splitChar_ne_nil c rest)
      | cons p ps =>
        rw [h] at ih
        cases ps with
        | nil => simpa [joinChar] using ih
        | cons q qs => simpa [joinChar] using ih

theorem splitChar_of_not_mem (c : Char) (s : Str) (h : ∀ x ∈ s, x ≠ c) :
    splitChar c s = [s] := by
  induction s with
  | nil => rfl
  | cons a rest ih =>
    rw [splitChar, if_neg (h a (by simp)),
      ih fun y hy => h y (by simp [hy])]

theorem splitChar_append_sep (c : Char) (a b : Str) (h : ∀ x ∈ a, x ≠ c) :
    splitChar c (a ++ c :: b) = a :: splitChar c b := by
  induction a with
  | nil => simp [splitChar]
  | cons x xs ih =>
    rw [List.cons_append, splitChar, if_neg (h x (by simp)),
      ih fun y hy => h y (by simp [hy])]

theorem mem_of_mem_splitChar (c : Char) (s : Str) :
    ∀ p ∈ splitChar c s, ∀ x ∈ p, x ∈ s := by
  induction s with
  | nil =>
    intro p hp x hx
    simp [splitChar] at hp
    subst hp; simp at hx
  | cons a rest ih =>
    intro p hp x hx
    rw [splitChar] at hp
    by_cases hac : a = c
    · rw [if_pos hac] at hp
      rcases List.mem_cons.mp hp with hp | hp
      · subst hp; simp at hx
      · exact List.mem_cons_of_mem a (ih p hp x hx)
    · rw [if_neg hac] at hp
      cases h : splitChar c rest with
      | nil => exact absurd h (splitChar_ne_nil c rest)
      | cons q qs =>
        rw [h] at hp
        rcases List.mem_cons.mp hp with hp | hp
        · subst hp
          rcases List.mem_cons.mp hx with hx | hx
          · exact hx ▸ List.mem_cons_self a rest
          · exact List.mem_cons_of_mem a
              (ih q (h ▸ List.mem_cons_self q qs) x hx)
        · exact List.mem_cons_of_mem a
            (ih p (h ▸ List.mem_cons_of_mem q hp) x hx)

theorem not_sep_mem_splitChar (c : Char) (s : Str) :
    ∀ p ∈ splitChar c s, c ∉ p := by
  induction s with
  | nil =>
    intro p hp
    simp [splitChar] at hp
    subst hp; simp
  | cons a rest ih =>
    intro p hp
    rw [splitChar] at hp
    by_cases hac : a = c
    · rw [if_pos hac] at hp
      rcases List.mem_cons.mp hp with hp | hp
      · subst hp; simp
      · exact ih p hp
    · rw [if_neg hac] at hp
      cases h : splitChar c rest with
      | nil => exact absurd h (splitChar_ne_nil c rest)
      | cons q qs =>
        rw [h] at hp
        rcases List.mem_cons.mp hp with hp | hp
        · subst hp
          intro hmem
          rcases List.mem_cons.mp hmem with hmem | hmem
          · exact hac hmem.symm
          · exact ih q (h ▸ List.mem_cons_self q qs) hmem
        · exact ih p (h ▸ List.mem_cons_of_mem q hp)


/-! ## Lemmas about form-urlencoded encoding and decoding -/

theorem hexDigitUpper_spec : ∀ d < 16,
    isHexB (hexDigitUpper d) = true ∧ hexVal (hexDigitUpper d) = d ∧
    (hexDigitUpper d ≠ '&' ∧ hexDigitUpper d ≠ '=' ∧ hexDigitUpper d ≠ '#') ∧
    hexDigitUpper d ≠ '+' ∧ hexDigitUpper d ≠ '%' := by decide

theorem char_toNat_div_lt (c : Char) (h : c.toNat < 256) :
    c.toNat / 16 < 16 :=
  (Nat.div_lt_iff_lt_mul (by omega)).mpr (by omega)

theorem mem_encodeChar_spec (c : Char) :
    ∀ x ∈ encodeChar c, x ≠ '&' ∧ x ≠ '=' ∧ x ≠ '#' := by
  intro x hx
  unfold encodeChar at hx
  by_cases h1 : isFormSafe c = true
  · rw [if_pos h1] at hx
    simp only [List.mem_singleton] at hx
    subst hx
    refine ⟨?_, ?_, ?_⟩ <;>
      exact fun he => by rw [he] at h1; exact absurd h1 (by decide)
  · rw [if_neg h1] at hx
    by_cases h2 : c = ' '
    · rw [if_pos h2] at hx
      simp only [List.mem_singleton] at hx
      subst hx; exact (by decide)
    · rw [if_neg h2] at hx
      by_cases h3 : c.toNat < 256
      · rw [if_pos h3] at hx
        have hd1 := hexDigitUpper_spec (c.toNat / 16) (char_toNat_div_lt c h3)
        have hd2 := hexDigitUpper_spec (c.toNat % 16) (Nat.mod_lt _ (by omega))
        simp only [List.mem_cons, List.not_mem_nil, or_false] at hx
        rcases hx with hx | hx | hx
        · subst hx; exact (by decide)
        · exact hx ▸ hd1.2.2.1
        · exact hx ▸ hd2.2.2.1
      · rw [if_neg h3] at hx
        simp only [List.mem_singleton] at hx
        subst hx
        refine ⟨?_, ?_, ?_⟩ <;>
          exact fun he => by rw [he] at h3; exact absurd (by decide) h3

theorem mem_encodeStr_spec (s : Str) :
    ∀ x ∈ encodeStr s, x ≠ '&' ∧ x ≠ '=' ∧ x ≠ '#' := by
  induction s with
  | nil => intro x hx; simp [encodeStr] at hx
  | cons c t ih =>
    intro x hx
    rw [encodeStr] at hx
    rcases List.mem_append.mp hx with hx | hx
    · exact mem_encodeChar_spec c x hx
    · exact ih x hx

theorem decodeStr_cons (c : Char) (rest : Str) :
    decodeStr (c :: rest) =
      if c = '+' then ' ' :: decodeStr rest
      else if c = '%' then
        match rest with
        | a :: b :: rest₂ =>
          if isHexB a && isHexB b then
            Char.ofNat (16 * hexVal a + hexVal b) :: decodeStr rest₂
          else '%' :: decodeStr (a :: b :: rest₂)
        | [a] => '%' :: decodeStr [a]
        | [] => ['%']
      else c :: decodeStr rest := by
  rw [decodeStr.eq_def]
  rfl

theorem decodeStr_encodeStr (s : Str) : decodeStr (encodeStr s) = s := by
  induction s with
  | nil => rfl
  | cons c t ih =>
    rw [encodeStr]
    unfold encodeChar
    by_cases h1 : isFormSafe c = true
    · rw [if_pos h1]
      have hplus : ¬(c = '+') := fun he => by
        rw [he] at h1; exact absurd h1 (by decide)
      have hpct : ¬(c = '%') := fun he => by
        rw [he] at h1; exact absurd h1 (by decide)
      rw [List.singleton_append, decodeStr_cons, if_neg hplus, if_neg hpct, ih]
    · rw [if_neg h1]
      by_cases h2 : c = ' '
      · rw [if_pos h2, List.singleton_append, decodeStr_cons]
        subst h2
        simp [ih]
      · rw [if_neg h2]
        by_cases h3 : c.toNat < 256
        · rw [if_pos h3]
          have hd1 := hexDigitUpper_spec (c.toNat / 16) (char_toNat_div_lt c h3)
          have hd2 := hexDigitUpper_spec (c.toNat % 16) (Nat.mod_lt _ (by omega))
          show decodeStr ('%' :: hexDigitUpper (c.toNat / 16) ::
            hexDigitUpper (c.toNat % 16) :: encodeStr t) = c :: t
          rw [decodeStr_cons]
          simp only [if_neg (by decide : ¬('%' = '+')), if_pos rfl, hd1.1,
            hd2.1, Bool.and_self, if_pos rfl, hd1.2.1, hd2.2.1, if_true]
          rw [Nat.div_add_mod, Char.ofNat_toNat, ih]
        · rw [if_neg h3]
          have hplus : ¬(c = '+') := fun he => by
            rw [he] at h3; exact absurd (by decide) h3
          have hpct : ¬(c = '%') := fun he => by
            rw [he] at h3; exact absurd (by decide) h3
          rw [List.singleton_append, decodeStr_cons, if_neg hplus, if_neg hpct, ih]

theorem encodePairs_ne_nil (ps : List (Str × Str)) (h : ps ≠ []) :
    encodePairs ps ≠ [] := by
  match ps with
  | [] => exact absurd rfl h
  | [(k, v)] =>
    show encodeStr k ++ '=' :: encodeStr v ≠ []
    simp [List.append_eq_nil]
  | (k, v) :: p :: rest =>
    show (encodeStr k ++ '=' :: encodeStr v) ++ '&' ::
      encodePairs (p :: rest) ≠ []
    simp [List.append_eq_nil]

theorem hash_not_mem_encodePairs (ps : List (Str × Str)) :
    '#' ∉ encodePairs ps := by
  match ps with
  | [] => simp [encodePairs]
  | [(k, v)] =>
    show '#' ∉ encodeStr k ++ '=' :: encodeStr v
    intro hmem
    rcases List.mem_append.mp hmem with hm | hm
    · exact (mem_encodeStr_spec k '#' hm).2.2 rfl
    · rcases List.mem_cons.mp hm with hm | hm
      · exact absurd hm (by decide)
      · exact (mem_encodeStr_spec v '#' hm).2.2 rfl
  | (k, v) :: p :: rest =>
    show '#' ∉ (encodeStr k ++ '=' :: encodeStr v) ++ '&' ::
      encodePairs (p :: rest)
    intro hmem
    have ihtail := hash_not_mem_encodePairs (p :: rest)
    rcases List.mem_append.mp hmem with hm | hm
    · rcases List.mem_append.mp hm with hm | hm
      · exact (mem_encodeStr_spec k '#' hm).2.2 rfl
      · rcases List.mem_cons.mp hm with hm | hm
        · exact absurd hm (by decide)
        · exact (mem_encodeStr_spec v '#' hm).2.2 rfl
    · rcases List.mem_cons.mp hm with hm | hm
      · exact absurd hm (by decide)
      · exact ihtail hm

theorem not_amp_mem_pair_enc (k v : Str) :
    ∀ x ∈ encodeStr k ++ '=' :: encodeStr v, x ≠ '&' := by
  intro x hx
  rcases List.mem_append.mp hx with hx | hx
  · exact (mem_encodeStr_spec k x hx).1
  · rcases List.mem_cons.mp hx with hx | hx
    · exact hx ▸ (by decide)
    · exact (mem_encodeStr_spec v x hx).1

theorem splitOnce_pair_enc (k v : Str) :
    splitOnce ['='] (encodeStr k ++ '=' :: encodeStr v) =
      some (encodeStr k, encodeStr v) := by
  exact splitOnce_append_not_mem '=' [] (encodeStr k) (encodeStr v)
    fun x hx => (mem_encodeStr_spec k x hx).2.1

theorem decodePairs_encodePairs (ps : List (Str × Str)) :
    decodePairs (encodePairs ps) = ps := by
  match ps with
  | [] => rfl
  | [(k, v)] =>
    have hne : encodeStr k ++ '=' :: encodeStr v ≠ [] := by
      simp [List.append_eq_nil]
    have h1 : splitChar '&' (encodePairs [(k, v)]) =
        [encodeStr k ++ '=' :: encodeStr v] :=
      splitChar_of_not_mem _ _ (not_amp_mem_pair_enc k v)
    unfold decodePairs
    rw [h1]
    have h2 : List.filter (fun p => p ≠ [])
        [encodeStr k ++ '=' :: encodeStr v] =
        [encodeStr k ++ '=' :: encodeStr v] := by
      simp [List.filter_cons, hne]
    rw [h2]
    simp only [List.map]
    rw [splitOnce_pair_enc]
    simp [decodeStr_encodeStr]
  | (k, v) :: p :: rest =>
    have ihtail := decodePairs_encodePairs (p :: rest)
    have hne : encodeStr k ++ '=' :: encodeStr v ≠ [] := by
      simp [List.append_eq_nil]
    have h1 : splitChar '&' (encodePairs ((k, v) :: p :: rest)) =
        (encodeStr k ++ '=' :: encodeStr v) ::
          splitChar '&' (encodePairs (p :: rest)) :=
      splitChar_append_sep '&' _ _ (not_amp_mem_pair_enc k v)
    unfold decodePairs
    rw [h1]
    rw [List.filter_cons_of_pos (by simp [hne])]
    simp only [List.map]
    rw [splitOnce_pair_enc]
    unfold decodePairs at ihtail
    rw [ihtail]
    simp [decodeStr_encodeStr]

/-! ## URL parse/serialize round-trip -/

theorem isInfixB_sandwich (a b : Str) :
    isInfixB [':', '/', '/'] (a ++ ':' :: '/' :: '/' :: b) = true := by
  induction a with
  | nil =>
    rw [List.nil_append, isInfixB]
    have : isPrefixB [':', '/', '/'] (':' :: '/' :: '/' :: b) = true := by
      simp [isPrefixB]
    simp [this]
  | cons x xs ih =>
    rw [List.cons_append, isInfixB, ih]
    simp

theorem toStr_contains_sep (u : Url) : isInfixB "://".data u.toStr = true :=
  isInfixB_sandwich u.scheme _

theorem splitOnce_char_none_inv (d : Char) (s : Str)
    (h : splitOnce [d] s = none) : ∀ x ∈ s, x ≠ d := by
  induction s with
  | nil => intro x hx; simp at hx
  | cons c rest ih =>
    intro x hx
    rw [splitOnce] at h
    by_cases hc : c = d
    · subst hc
      have hpre : isPrefixB [c] (c :: rest) = true := by simp [isPrefixB]
      rw [if_pos hpre] at h
      exact absurd h (by simp)
    · rw [isPrefixB_cons_of_ne d c [] rest hc] at h
      simp only [Bool.false_eq_true, if_false] at h
      cases hsp : splitOnce [d] rest with
      | none =>
        rcases List.mem_cons.mp hx with hx | hx
        · exact hx ▸ hc
        · exact ih (by rw [hsp]) x hx
      | some ab => rw [hsp] at h; exact absurd h (by simp)

theorem dropWhile_cons_head (p : Char → Bool) (l : Str) (y : Char) (t : Str)
    (h : l.dropWhile p = y :: t) : p y = false := by
  induction l with
  | nil => simp at h
  | cons a rest ih =>
    rw [List.dropWhile_cons] at h
    by_cases hp : p a = true
    · rw [if_pos hp] at h; exact ih h
    · rw [if_neg hp] at h
      injection h with h1 h2
      subst h1
      exact Bool.eq_false_iff.mpr hp

theorem dropWhile_append_of_all (pred : Char → Bool) (a : Str) (y : Char)
    (z : Str) (ha : ∀ x ∈ a, pred x = true) (hy : pred y = false) :
    (a ++ y :: z).dropWhile pred = y :: z := by
  induction a with
  | nil => simp [List.dropWhile_cons, hy]
  | cons x xs ih =>
    rw [List.cons_append, List.dropWhile_cons, if_pos (ha x (by simp)),
      ih fun t ht => ha t (by simp [ht])]

theorem parseFrag_sep (a b : Str) (h : ∀ x ∈ a, x ≠ '#') :
    parseFrag (a ++ '#' :: b) = (a, some b) := by
  rw [parseFrag]
  have := splitOnce_append_not_mem '#' [] a b h
  simp only [List.nil_append] at this
  rw [this]

theorem parseFrag_no_sep (s : Str) (h : ∀ x ∈ s, x ≠ '#') :
    parseFrag s = (s, none) := by
  rw [parseFrag, splitOnce_none_of_not_mem '#' [] s h]

theorem parseQueryPart_sep (a b : Str) (h : ∀ x ∈ a, x ≠ '?') :
    parseQueryPart (a ++ '?' :: b) = (a, some b) := by
  rw [parseQueryPart]
  have := splitOnce_append_not_mem '?' [] a b h
  simp only [List.nil_append] at this
  rw [this]

theorem parseQueryPart_no_sep (s : Str) (h : ∀ x ∈ s, x ≠ '?') :
    parseQueryPart s = (s, none) := by
  rw [parseQueryPart, splitOnce_none_of_not_mem '?' [] s h]

theorem parseFrag_inv_none (s m : Str) (h : parseFrag s = (m, none)) :
    m = s ∧ ∀ x ∈ s, x ≠ '#' := by
  rw [parseFrag] at h
  cases hsp : splitOnce ['#'] s with
  | none =>
    rw [hsp] at h
    simp only [Prod.mk.injEq] at h
    exact ⟨h.1.symm, splitOnce_char_none_inv '#' s hsp⟩
  | some ab =>
    obtain ⟨a, b⟩ := ab
    rw [hsp] at h
    simp at h
  
theorem parseFrag_inv_some (s m f : Str) (h : parseFrag s = (m, some f)) :
    s = m ++ '#' :: f ∧ ∀ x ∈ m, x ≠ '#' := by
  rw [parseFrag] at h
  cases hsp : splitOnce ['#'] s with
  | none => rw [hsp] at h; simp at h
  | some ab =>
    obtain ⟨a, b⟩ := ab
    rw [hsp] at h
    simp only [Prod.mk.injEq, Option.some.injEq] at h
    obtain ⟨hm, hf⟩ := h
    subst hm; subst hf
    exact splitOnce_char_inv '#' s a b hsp

theorem parseQueryPart_inv_none (s m : Str) (h : parseQueryPart s = (m, none)) :
    m = s ∧ ∀ x ∈ s, x ≠ '?' := by
  rw [parseQueryPart] at h
  cases hsp : splitOnce ['?'] s with
  | none =>
    rw [hsp] at h
    simp only [Prod.mk.injEq] at h
    exact ⟨h.1.symm, splitOnce_char_none_inv '?' s hsp⟩
  | some ab =>
    obtain ⟨a, b⟩ := ab
    rw [hsp] at h
    simp at h

theorem parseQueryPart_inv_some (s m q : Str)
    (h : parseQueryPart s = (m, some q)) :
    s = m ++ '?' :: q ∧ ∀ x ∈ m, x ≠ '?' := by
  rw [parseQueryPart] at h
  cases hsp : splitOnce ['?'] s with
  | none => rw [hsp] at h; simp at h
  | some ab =>
    obtain ⟨a, b⟩ := ab
    rw [hsp] at h
    simp only [Prod.mk.injEq, Option.some.injEq] at h
    obtain ⟨hm, hq⟩ := h
    subst hm; subst hq
    exact splitOnce_char_inv '?' s a b hsp


theorem Url.parse_toStr (u : Url) (hwf : u.WF) : Url.parse u.toStr = some u := by
  obtain ⟨scheme, host, path, query, fragment⟩ := u
  obtain ⟨hs1, hs2, hh1, hh2, ⟨p, hp⟩, hpath, hq⟩ := hwf
  dsimp only at hs1 hs2 hh1 hh2 hp hpath hq
  subst hp
  have hsch : ∀ x ∈ scheme, x ≠ ':' := by
    intro x hx he
    have hax := List.all_eq_true.mp hs2 x hx
    rw [he] at hax
    exact absurd hax (by decide)
  have hhost : ∀ x ∈ host, hostChar x = true := List.all_eq_true.mp hh2
  have hnoq : ∀ x ∈ ('/' :: p) ++ optPart '?' query, x ≠ '#' := by
    intro x hx
    rcases List.mem_append.mp hx with hx | hx
    · exact (hpath x hx).2
    · cases query with
      | none => simp [optPart] at hx
      | some q =>
        rw [optPart] at hx
        rcases List.mem_cons.mp hx with hx | hx
        · exact hx ▸ (by decide)
        · exact hq q rfl x hx
  have h1 : splitOnce [':', '/', '/']
      (Url.toStr ⟨scheme, host, '/' :: p, query, fragment⟩) =
      some (scheme, host ++ (('/' :: p) ++
        (optPart '?' query ++ optPart '#' fragment))) :=
    splitOnce_append_not_mem ':' ['/', '/'] scheme _ hsch
  have h2 : (host ++ (('/' :: p) ++
      (optPart '?' query ++ optPart '#' fragment))).takeWhile hostChar =
      host :=
    takeWhile_append_of_all hostChar host '/' _ hhost (by decide)
  have h3 : (host ++ (('/' :: p) ++
      (optPart '?' query ++ optPart '#' fragment))).dropWhile hostChar =
      ('/' :: p) ++ (optPart '?' query ++ optPart '#' fragment) :=
    dropWhile_append_of_all hostChar host '/' _ hhost (by decide)
  have h4 : parseFrag (('/' :: p) ++
      (optPart '?' query ++ optPart '#' fragment)) =
      (('/' :: p) ++ optPart '?' query, fragment) := by
    cases fragment with
    | none =>
      rw [show optPart '#' none = [] from rfl, List.append_nil]
      exact parseFrag_no_sep _ hnoq
    | some f =>
      rw [show optPart '#' (some f) = '#' :: f from rfl,
        ← List.append_assoc]
      exact parseFrag_sep _ f hnoq
  have h5 : parseQueryPart (('/' :: p) ++ optPart '?' query) =
      ('/' :: p, query) := by
    cases query with
    | none =>
      rw [show optPart '?' none = [] from rfl, List.append_nil]
      exact parseQueryPart_no_sep _ fun x hx => (hpath x hx).1
    | some q =>
      exact parseQueryPart_sep _ q fun x hx => (hpath x hx).1
  rw [Url.parse, h1]
  have hcond : (decide (scheme = []) || !scheme.all isSchemeChar) = false := by
    simp [hs1, hs2]
  simp only [hcond, Bool.false_eq_true, if_false, h2, h3, h4, h5,
    if_neg hh1]
  simp

theorem Url.parse_wf (s : Str) (u : Url) (h : Url.parse s = some u) :
    u.WF := by
  rw [Url.parse] at h
  cases hsp : splitOnce [':', '/', '/'] s with
  | none => rw [hsp] at h; exact absurd h (by simp)
  | some sr =>
    obtain ⟨scheme, rest⟩ := sr
    rw [hsp] at h
    dsimp only at h
    by_cases hg : (decide (scheme = []) || !scheme.all isSchemeChar) = true
    · rw [if_pos hg] at h; exact absurd h (by simp)
    · rw [if_neg hg] at h
      by_cases hhost : rest.takeWhile hostChar = []
      · rw [if_pos hhost] at h; exact absurd h (by simp)
      · rw [if_neg hhost] at h
        simp only [Bool.or_eq_true, decide_eq_true_eq, Bool.not_eq_true',
          not_or, Bool.not_eq_false] at hg
        obtain ⟨hs1, hs2⟩ := hg
        rcases hmf : parseFrag (rest.dropWhile hostChar) with ⟨main, frag⟩
        rcases hpq : parseQueryPart main with ⟨pq, query⟩
        rw [hmf] at h
        simp only at h
        rw [hpq] at h
        simp only at h
        have hu : u = ⟨scheme, rest.takeWhile hostChar,
            if pq = [] then ['/'] else pq, query, frag⟩ :=
          (Option.some.inj h).symm
        subst hu
        have hmainhash : ∀ x ∈ main, x ≠ '#' := by
          cases frag with
          | none =>
            obtain ⟨hm, hall⟩ := parseFrag_inv_none _ _ hmf
            exact fun x hx => hall x (hm ▸ hx)
          | some f => exact (parseFrag_inv_some _ _ _ hmf).2
        have hpqsub : ∀ x ∈ pq, x ∈ main := by
          cases query with
          | none =>
            obtain ⟨hm, _⟩ := parseQueryPart_inv_none _ _ hpq
            exact fun x hx => hm ▸ hx
          | some q =>
            obtain ⟨hm, _⟩ := parseQueryPart_inv_some _ _ _ hpq
            exact fun x hx => hm ▸ List.mem_append_left _ hx
        have hpqq : ∀ x ∈ pq, x ≠ '?' := by
          cases query with
          | none =>
            obtain ⟨hm, hall⟩ := parseQueryPart_inv_none _ _ hpq
            exact fun x hx => hall x (hm ▸ hx)
          | some q => exact (parseQueryPart_inv_some _ _ _ hpq).2
        refine ⟨hs1, hs2, hhost,
          List.all_eq_true.mpr fun x hx => List.mem_takeWhile_imp hx,
          ?_, ?_, ?_⟩
        · -- the stored path starts with a slash
          by_cases hpqe : pq = []
          · exact ⟨[], by rw [if_pos hpqe]⟩
          · obtain ⟨y, t, hyt⟩ := List.exists_cons_of_ne_nil hpqe
            have hymem : y ∈ pq := hyt ▸ List.mem_cons_self y t
            have hy1 : y ≠ '?' := hpqq y hymem
            have hy2 : y ≠ '#' := hmainhash y (hpqsub y hymem)
            have hmain_cons : ∃ z, main = y :: z := by
              cases query with
              | none =>
                obtain ⟨hm, _⟩ := parseQueryPart_inv_none _ _ hpq
                exact ⟨t, by rw [← hm, hyt]⟩
              | some q =>
                obtain ⟨hm, _⟩ := parseQueryPart_inv_some _ _ _ hpq
                exact ⟨t ++ '?' :: q, by rw [hm, hyt, List.cons_append]⟩
            obtain ⟨z, hz⟩ := hmain_cons
            have hX_cons : ∃ w, rest.dropWhile hostChar = y :: w := by
              cases frag with
              | none =>
                obtain ⟨hm, _⟩ := parseFrag_inv_none _ _ hmf
                exact ⟨z, by rw [← hm, hz]⟩
              | some f =>
                obtain ⟨hm, _⟩ := parseFrag_inv_some _ _ _ hmf
                exact ⟨z ++ '#' :: f, by rw [hm, hz, List.cons_append]⟩
            obtain ⟨w, hw⟩ := hX_cons
            have hyhost : hostChar y = false :=
              dropWhile_cons_head hostChar rest y w hw
            have hy3 : y = '/' := by
              simp only [hostChar, Bool.and_eq_false_iff,
                decide_eq_false_iff_not, not_not] at hyhost
              rcases hyhost with hx | hx
              · rcases hx with hx | hx
                · exact hx
                · exact absurd hx hy1
              · exact absurd hx hy2
            exact ⟨t, by rw [if_neg hpqe, hyt, hy3]⟩
        · -- the stored path contains neither ? nor #
          intro x hx
          by_cases hpqe : pq = []
          · rw [if_pos hpqe] at hx
            rcases List.mem_singleton.mp hx with rfl
            exact ⟨by decide, by decide⟩
          · rw [if_neg hpqe] at hx
            exact ⟨hpqq x hx, hmainhash x (hpqsub x hx)⟩
        · -- the query contains no #
          intro q hqq x hx
          cases query with
          | none => simp at hqq
          | some q₂ =>
            obtain ⟨hm, _⟩ := parseQueryPart_inv_some _ _ _ hpq
            have hq2 : q = q₂ := by
              have := hqq
              simp only [Option.some.injEq] at this
              exact this.symm
            subst hq2
            exact hmainhash x (hm ▸ List.mem_append_right pq
              (List.mem_cons_of_mem _ hx))

/-! ## Engine-level lemmas -/

theorem runPass_nil (recf : Url → Url × Bool) (urlStr : Str)
    (st : PassState) : runPass recf [] urlStr st = st := rfl

theorem cleanUrlInPlace_nil (fuel : Nat) (url : Url) :
    cleanUrlInPlace [] fuel url = (url, false) := by
  cases fuel with
  | zero => rfl
  | succ f =>
    rw [cleanUrlInPlace, show (5 : Nat) = 4 + 1 from rfl, cleanLoop]
    simp [runPass]

theorem cleanLoop_count_le (recf : Url → Url × Bool)
    (ps : List CompiledProvider) :
    ∀ n url changed, (cleanLoop recf ps n url changed).2.2 ≤ n := by
  intro n
  induction n with
  | zero => intro url changed; simp [cleanLoop]
  | succ n ih =>
    intro url changed
    rw [cleanLoop]
    dsimp only
    split
    · exact Nat.succ_le_succ (ih _ _)
    · exact Nat.succ_le_succ (Nat.zero_le n)

theorem cleanLoop_stops (recf : Url → Url × Bool)
    (ps : List CompiledProvider) (n : Nat) (url : Url) (changed : Bool)
    (h : (runPass recf ps url.toStr ⟨url, changed, false⟩).iterChanged =
      false) :
    cleanLoop recf ps (n + 1) url changed =
      ((runPass recf ps url.toStr ⟨url, changed, false⟩).url,
        (runPass recf ps url.toStr ⟨url, changed, false⟩).changed, 1) := by
  rw [cleanLoop]
  simp [h]

theorem processProviderStep_exception (recf : Url → Url × Bool)
    (urlStr : Str) (st : PassState) (p : CompiledProvider)
    (h : (p.exceptions.any fun e => e.is_match urlStr) = true) :
    processProviderStep recf urlStr st p = st := by
  rw [processProviderStep]
  by_cases hact : (p.url_pattern.is_match urlStr ||
      decide (p.name = "generic".data)) = true
  · rw [if_pos hact, if_pos h]
  · rw [if_neg hact]

theorem runPass_exception_skip (recf : Url → Url × Bool) (urlStr : Str)
    (st : PassState) (l₁ : List CompiledProvider) (p : CompiledProvider)
    (l₂ : List CompiledProvider)
    (h : (p.exceptions.any fun e => e.is_match urlStr) = true) :
    runPass recf (l₁ ++ p :: l₂) urlStr st =
      runPass recf (l₁ ++ l₂) urlStr st := by
  rw [runPass, runPass, List.foldl_append, List.foldl_append,
    List.foldl_cons, processProviderStep_exception recf urlStr _ p h]

theorem cleanGithubUrl_fields (u : Url) :
    (cleanGithubUrl u).1.scheme = u.scheme ∧
    (cleanGithubUrl u).1.host = u.host := by
  rw [cleanGithubUrl]
  split
  · split
    · dsimp only
      split
      · exact ⟨rfl, rfl⟩
      · exact ⟨rfl, rfl⟩
    · exact ⟨rfl, rfl⟩
  · exact ⟨rfl, rfl⟩

theorem applyCustomRules_fields (cr : List CustomRule) (u : Url) :
    (applyCustomRules cr u).1.scheme = u.scheme ∧
    (applyCustomRules cr u).1.host = u.host ∧
    (applyCustomRules cr u).1.path = u.path ∧
    (applyCustomRules cr u).1.fragment = u.fragment := by
  rw [applyCustomRules]
  split
  · exact ⟨rfl, rfl, rfl, rfl⟩
  · dsimp only
    split
    · split
      · exact ⟨rfl, rfl, rfl, rfl⟩
      · exact ⟨rfl, rfl, rfl, rfl⟩
    · exact ⟨rfl, rfl, rfl, rfl⟩

theorem aggressivePass_fields (u : Url) :
    (aggressivePass u).1.scheme = u.scheme ∧
    (aggressivePass u).1.host = u.host ∧
    (aggressivePass u).1.path = u.path ∧
    (aggressivePass u).1.fragment = u.fragment := by
  rw [aggressivePass]
  split
  · exact ⟨rfl, rfl, rfl, rfl⟩
  · dsimp only
    split
    · split
      · exact ⟨rfl, rfl, rfl, rfl⟩
      · exact ⟨rfl, rfl, rfl, rfl⟩
    · exact ⟨rfl, rfl, rfl, rfl⟩

theorem cleanGithubUrl_congr (u v : Url) (hh : v.host = u.host)
    (hp : v.path = u.path) (h2 : cleanGithubUrl u = (u, false)) :
    cleanGithubUrl v = (v, false) := by
  rw [cleanGithubUrl]
  by_cases hg : v.host = "github.com".data
  · rw [if_pos hg]
    rcases hseg : v.pathSegments with _ | ⟨o, _ | ⟨r, _ | ⟨c, cs⟩⟩⟩
    · rfl
    · rfl
    · rfl
    · dsimp only
      by_cases hpath : v.path ≠ '/' :: (o ++ '/' :: r)
      · exfalso
        have hgu : u.host = "github.com".data := by rw [← hh]; exact hg
        have hsegu : u.pathSegments = o :: r :: c :: cs := by
          have : u.pathSegments = v.pathSegments := by
            rw [Url.pathSegments, Url.pathSegments, hp]
          rw [this, hseg]
        have hpathu : u.path ≠ '/' :: (o ++ '/' :: r) := by
          rw [← hp]; exact hpath
        have hch : cleanGithubUrl u =
            ({ u with
                path := '/' :: (o ++ '/' :: r), query := none,
                fragment := none }, true) := by
          rw [cleanGithubUrl, if_pos hgu, hsegu]
          dsimp only
          rw [if_pos hpathu]
        rw [hch] at h2
        exact absurd (congrArg Prod.snd h2) (by simp)
      · rw [if_neg hpath]
  · rw [if_neg hg]

theorem cleanGithubUrl_after_truncate (o r : Str) (v : Url)
    (hp : v.path = '/' :: (o ++ '/' :: r)) (ho : '/' ∉ o) (hr : '/' ∉ r) :
    cleanGithubUrl v = (v, false) := by
  rw [cleanGithubUrl]
  by_cases hg : v.host = "github.com".data
  · rw [if_pos hg]
    have hseg : v.pathSegments = [o, r] := by
      rw [Url.pathSegments, hp, List.drop_one, List.tail_cons,
        splitChar_append_sep '/' o r (fun x hx he => ho (he ▸ hx)),
        splitChar_of_not_mem '/' r (fun x hx he => hr (he ▸ hx))]
    rw [hseg]
  · rw [if_neg hg]

theorem cleanGithubUrl_shape (u : Url) :
    cleanGithubUrl u = (u, false) ∨
    ∃ o r, '/' ∉ o ∧ '/' ∉ r ∧ (∀ x ∈ o, x ∈ u.path) ∧
      (∀ x ∈ r, x ∈ u.path) ∧
      cleanGithubUrl u = ({ u with
        path := '/' :: (o ++ '/' :: r),
        query := none, fragment := none }, true) := by
  rw [cleanGithubUrl]
  by_cases hg : u.host = "github.com".data
  · rw [if_pos hg]
    rcases hseg : u.pathSegments with _ | ⟨o, _ | ⟨r, _ | ⟨c, cs⟩⟩⟩
    · exact Or.inl rfl
    · exact Or.inl rfl
    · exact Or.inl rfl
    · dsimp only
      by_cases hpath : u.path ≠ '/' :: (o ++ '/' :: r)
      · rw [if_pos hpath]
        have hom : o ∈ splitChar '/' (u.path.drop 1) := by
          have : o ∈ u.pathSegments := hseg ▸ List.mem_cons_self o _
          rwa [Url.pathSegments] at this
        have hrm : r ∈ splitChar '/' (u.path.drop 1) := by
          have : r ∈ u.pathSegments :=
            hseg ▸ List.mem_cons_of_mem o (List.mem_cons_self r _)
          rwa [Url.pathSegments] at this
        refine Or.inr ⟨o, r, not_sep_mem_splitChar '/' _ o hom,
          not_sep_mem_splitChar '/' _ r hrm, ?_, ?_, rfl⟩
        · exact fun x hx => List.mem_of_mem_drop
            (mem_of_mem_splitChar '/' _ o hom x hx)
        · exact fun x hx => List.mem_of_mem_drop
            (mem_of_mem_splitChar '/' _ r hrm x hx)
      · rw [if_neg hpath]; exact Or.inl rfl
  · rw [if_neg hg]; exact Or.inl rfl

/-! ## Query provenance and no-op lemmas for the filtering passes -/

theorem applyCustomRules_post (cr : List CustomRule) (u : Url) (q₂ : Str)
    (h : (applyCustomRules cr u).1.query = some q₂) :
    ∀ kv ∈ decodePairs q₂,
      (cr.any fun r => isInfixB r.pattern kv.1) = false := by
  intro kv hkv
  rw [applyCustomRules] at h
  cases hq : u.query with
  | none =>
    rw [hq] at h
    dsimp only at h
    rw [hq] at h
    exact absurd h (by simp)
  | some q =>
    rw [hq] at h
    dsimp only at h
    by_cases hch : ((decodePairs q).any fun kv =>
        cr.any fun r => isInfixB r.pattern kv.1) = true
    · rw [if_pos hch] at h
      by_cases hk : ((decodePairs q).filter fun kv =>
          !cr.any fun r => isInfixB r.pattern kv.1) ≠ []
      · rw [if_pos hk] at h
        dsimp only at h
        have hq₂ : q₂ = encodePairs ((decodePairs q).filter fun kv =>
            !cr.any fun r => isInfixB r.pattern kv.1) :=
          (Option.some.inj h).symm
        subst hq₂
        rw [decodePairs_encodePairs] at hkv
        have := (List.mem_filter.mp hkv).2
        simpa using this
      · rw [if_neg hk] at h
        exact absurd h (by simp)
    · rw [if_neg hch] at h
      dsimp only at h
      rw [hq] at h
      have hqq : q₂ = q := (Option.some.inj h).symm
      subst hqq
      have hall := Bool.eq_false_iff.mpr hch
      rw [List.any_eq_false] at hall
      simpa using hall kv hkv

theorem aggressivePass_post (u : Url) (q₃ : Str)
    (h : (aggressivePass u).1.query = some q₃) :
    ∀ kv ∈ decodePairs q₃,
      (aggressiveTrackers.any fun t => decide (t = kv.1)) = false := by
  intro kv hkv
  rw [aggressivePass] at h
  cases hq : u.query with
  | none =>
    rw [hq] at h
    dsimp only at h
    rw [hq] at h
    exact absurd h (by simp)
  | some q =>
    rw [hq] at h
    dsimp only at h
    by_cases hch : ((decodePairs q).any fun kv =>
        aggressiveTrackers.any fun t => decide (t = kv.1)) = true
    · rw [if_pos hch] at h
      by_cases hk : ((decodePairs q).filter fun kv =>
          !aggressiveTrackers.any fun t => decide (t = kv.1)) ≠ []
      · rw [if_pos hk] at h
        dsimp only at h
        have hq₃ : q₃ = encodePairs ((decodePairs q).filter fun kv =>
            !aggressiveTrackers.any fun t => decide (t = kv.1)) :=
          (Option.some.inj h).symm
        subst hq₃
        rw [decodePairs_encodePairs] at hkv
        have := (List.mem_filter.mp hkv).2
        simpa using this
      · rw [if_neg hk] at h
        exact absurd h (by simp)
    · rw [if_neg hch] at h
      dsimp only at h
      rw [hq] at h
      have hqq : q₃ = q := (Option.some.inj h).symm
      subst hqq
      have hall := Bool.eq_false_iff.mpr hch
      rw [List.any_eq_false] at hall
      exact Bool.eq_false_iff.mpr (hall kv hkv)

theorem aggressivePass_query_sub (u : Url) (q₃ : Str) (kv : Str × Str)
    (h : (aggressivePass u).1.query = some q₃)
    (hkv : kv ∈ decodePairs q₃) :
    ∃ q₂, u.query = some q₂ ∧ kv ∈ decodePairs q₂ := by
  rw [aggressivePass] at h
  cases hq : u.query with
  | none =>
    rw [hq] at h
    dsimp only at h
    rw [hq] at h
    exact absurd h (by simp)
  | some q =>
    rw [hq] at h
    dsimp only at h
    by_cases hch : ((decodePairs q).any fun kv =>
        aggressiveTrackers.any fun t => decide (t = kv.1)) = true
    · rw [if_pos hch] at h
      by_cases hk : ((decodePairs q).filter fun kv =>
          !aggressiveTrackers.any fun t => decide (t = kv.1)) ≠ []
      · rw [if_pos hk] at h
        dsimp only at h
        have hq₃ : q₃ = encodePairs ((decodePairs q).filter fun kv =>
            !aggressiveTrackers.any fun t => decide (t = kv.1)) :=
          (Option.some.inj h).symm
        subst hq₃
        rw [decodePairs_encodePairs] at hkv
        exact ⟨q, rfl, (List.mem_filter.mp hkv).1⟩
      · rw [if_neg hk] at h
        exact absurd h (by simp)
    · rw [if_neg hch] at h
      dsimp only at h
      rw [hq] at h
      have hqq : q₃ = q := (Option.some.inj h).symm
      exact ⟨q, rfl, hqq ▸ hkv⟩

theorem applyCustomRules_no_match (cr : List CustomRule) (u : Url)
    (h : ∀ q, u.query = some q → ∀ kv ∈ decodePairs q,
      (cr.any fun r => isInfixB r.pattern kv.1) = false) :
    applyCustomRules cr u = (u, false) := by
  rw [applyCustomRules]
  cases hq : u.query with
  | none => rfl
  | some q =>
    dsimp only
    have hch : ((decodePairs q).any fun kv =>
        cr.any fun r => isInfixB r.pattern kv.1) = false :=
      List.any_eq_false.mpr fun kv hkv => by simp [h q hq kv hkv]
    simp only [hch, Bool.false_eq_true, if_false]

theorem aggressivePass_no_match (u : Url)
    (h : ∀ q, u.query = some q → ∀ kv ∈ decodePairs q,
      (aggressiveTrackers.any fun t => decide (t = kv.1)) = false) :
    aggressivePass u = (u, false) := by
  rw [aggressivePass]
  cases hq : u.query with
  | none => rfl
  | some q =>
    dsimp only
    have hch : ((decodePairs q).any fun kv =>
        aggressiveTrackers.any fun t => decide (t = kv.1)) = false :=
      List.any_eq_false.mpr fun kv hkv => by simp [h q hq kv hkv]
    simp only [hch, Bool.false_eq_true, if_false]

/-! ## Well-formedness preservation -/

theorem wf_cleanGithubUrl (u : Url) (h : u.WF) : (cleanGithubUrl u).1.WF := by
  rcases cleanGithubUrl_shape u with hc | ⟨o, r, ho, hr, hom, hrm, hc⟩
  · rw [hc]; exact h
  · rw [hc]
    obtain ⟨hs1, hs2, hh1, hh2, ⟨p, hp⟩, hpath, hq⟩ := h
    refine ⟨hs1, hs2, hh1, hh2, ⟨o ++ '/' :: r, rfl⟩, ?_, ?_⟩
    · intro x hx
      rcases List.mem_cons.mp hx with hx | hx
      · subst hx; exact ⟨by decide, by decide⟩
      · rcases List.mem_append.mp hx with hx | hx
        · exact hpath x (hom x hx)
        · rcases List.mem_cons.mp hx with hx | hx
          · subst hx; exact ⟨by decide, by decide⟩
          · exact hpath x (hrm x hx)
    · intro q₂ hq₂
      exact absurd hq₂ (by simp)

theorem wf_applyCustomRules (cr : List CustomRule) (u : Url) (h : u.WF) :
    (applyCustomRules cr u).1.WF := by
  obtain ⟨hs1, hs2, hh1, hh2, hex, hpath, hq⟩ := h
  rw [applyCustomRules]
  cases hqq : u.query with
  | none => exact ⟨hs1, hs2, hh1, hh2, hex, hpath, hq⟩
  | some q =>
    dsimp only
    by_cases hch : ((decodePairs q).any fun kv =>
        cr.any fun r => isInfixB r.pattern kv.1) = true
    · rw [if_pos hch]
      by_cases hk : ((decodePairs q).filter fun kv =>
          !cr.any fun r => isInfixB r.pattern kv.1) ≠ []
      · rw [if_pos hk]
        refine ⟨hs1, hs2, hh1, hh2, hex, hpath, ?_⟩
        intro q₂ hq₂ x hx
        have hqe : q₂ = encodePairs ((decodePairs q).filter fun kv =>
            !cr.any fun r => isInfixB r.pattern kv.1) :=
          (Option.some.inj hq₂).symm
        subst hqe
        exact fun he => hash_not_mem_encodePairs _ (he ▸ hx)
      · rw [if_neg hk]
        refine ⟨hs1, hs2, hh1, hh2, hex, hpath, ?_⟩
        intro q₂ hq₂
        exact absurd hq₂ (by simp)
    · rw [if_neg hch]
      exact ⟨hs1, hs2, hh1, hh2, hex, hpath, hq⟩

theorem wf_aggressivePass (u : Url) (h : u.WF) : (aggressivePass u).1.WF := by
  obtain ⟨hs1, hs2, hh1, hh2, hex, hpath, hq⟩ := h
  rw [aggressivePass]
  cases hqq : u.query with
  | none => exact ⟨hs1, hs2, hh1, hh2, hex, hpath, hq⟩
  | some q =>
    dsimp only
    by_cases hch : ((decodePairs q).any fun kv =>
        aggressiveTrackers.any fun t => decide (t = kv.1)) = true
    · rw [if_pos hch]
      by_cases hk : ((decodePairs q).filter fun kv =>
          !aggressiveTrackers.any fun t => decide (t = kv.1)) ≠ []
      · rw [if_pos hk]
        refine ⟨hs1, hs2, hh1, hh2, hex, hpath, ?_⟩
        intro q₂ hq₂ x hx
        have hqe : q₂ = encodePairs ((decodePairs q).filter fun kv =>
            !aggressiveTrackers.any fun t => decide (t = kv.1)) :=
          (Option.some.inj hq₂).symm
        subst hqe
        exact fun he => hash_not_mem_encodePairs _ (he ▸ hx)
      · rw [if_neg hk]
        refine ⟨hs1, hs2, hh1, hh2, hex, hpath, ?_⟩
        intro q₂ hq₂
        exact absurd hq₂ (by simp)
    · rw [if_neg hch]
      exact ⟨hs1, hs2, hh1, hh2, hex, hpath, hq⟩

/-! ## Idempotence of the provider-independent pipeline -/

theorem sanitize_nil_idem (fuel fuel₂ : Nat) (text : Str)
    (custom : List CustomRule) (ignored : List Str) (c label : Str)
    (h : sanitize [] fuel text custom ignored = some (c, label)) :
    sanitize [] fuel₂ c custom ignored = none := by
  rw [sanitize] at h
  dsimp only at h
  cases hparse : Url.parse (if !isInfixB "://".data text &&
      !isPrefixB "mailto:".data text then "http://".data ++ text
    else text) with
  | none => rw [hparse] at h; exact absurd h (by simp)
  | some u₀ =>
    rw [hparse] at h
    dsimp only at h
    by_cases hig : (ignored.any fun d => isInfixB d u₀.host) = true
    · rw [if_pos hig] at h; exact absurd h (by simp)
    · rw [if_neg hig] at h
      rw [cleanUrlInPlace_nil] at h
      dsimp only at h
      set u₁ := (cleanGithubUrl u₀).1 with hu₁
      set u₂ := (applyCustomRules custom u₁).1 with hu₂
      set u₃ := (aggressivePass u₂).1 with hu₃
      by_cases hcond : (false || (aggressivePass u₂).2 ||
          (applyCustomRules custom u₁).2 || (cleanGithubUrl u₀).2) = true
      swap
      · rw [if_neg hcond] at h; exact absurd h (by simp)
      · rw [if_pos hcond] at h
        have hc : c = u₃.toStr :=
          (congrArg Prod.fst (Option.some.inj h)).symm
        subst hc
        have hwf₀ : u₀.WF := Url.parse_wf _ _ hparse
        have hwf₃ : u₃.WF := wf_aggressivePass _
          (wf_applyCustomRules custom _ (wf_cleanGithubUrl u₀ hwf₀))
        have hhost3 : u₃.host = u₀.host := by
          rw [hu₃, (aggressivePass_fields u₂).2.1, hu₂,
            (applyCustomRules_fields custom u₁).2.1, hu₁,
            (cleanGithubUrl_fields u₀).2]
        have hpath3 : u₃.path = u₁.path := by
          rw [hu₃, (aggressivePass_fields u₂).2.2.1, hu₂,
            (applyCustomRules_fields custom u₁).2.2.1]
        have hgh₂ : cleanGithubUrl u₃ = (u₃, false) := by
          rcases cleanGithubUrl_shape u₀ with hcg | ⟨o, r, ho, hr, _, _, hcg⟩
          · have hpu : u₃.path = u₀.path := by
              rw [hpath3, hu₁, hcg]
            exact cleanGithubUrl_congr u₀ u₃ hhost3 hpu hcg
          · refine cleanGithubUrl_after_truncate o r u₃ ?_ ho hr
            rw [hpath3, hu₁, hcg]
        have hcu₂ : applyCustomRules custom u₃ = (u₃, false) := by
          refine applyCustomRules_no_match custom u₃ ?_
          intro q hqq kv hkv
          obtain ⟨q₂, hq₂, hkv₂⟩ :=
            aggressivePass_query_sub u₂ q kv (hu₃ ▸ hqq) hkv
          exact applyCustomRules_post custom u₁ q₂ (hu₂ ▸ hq₂) kv hkv₂
        have hag₂ : aggressivePass u₃ = (u₃, false) := by
          refine aggressivePass_no_match u₃ ?_
          intro q hqq kv hkv
          exact aggressivePass_post u₂ q (hu₃ ▸ hqq) kv hkv
        rw [sanitize]
        dsimp only
        have hsep := toStr_contains_sep u₃
        simp only [hsep, Bool.not_true, Bool.false_and, Bool.false_eq_true,
          if_false]
        rw [Url.parse_toStr u₃ hwf₃]
        dsimp only
        rw [hhost3, if_neg hig, hgh₂]
        dsimp only
        rw [hcu₂]
        dsimp only
        rw [cleanUrlInPlace_nil]
        dsimp only
        rw [hag₂]
        simp

/-! ## No dangling empty query -/

theorem applyCustomRules_query_ne_empty (cr : List CustomRule) (u : Url)
    (h : u.query ≠ some []) : (applyCustomRules cr u).1.query ≠ some [] := by
  rw [applyCustomRules]
  cases hq : u.query with
  | none =>
    dsimp only
    rw [hq]
    simp
  | some q =>
    dsimp only
    by_cases hch : ((decodePairs q).any fun kv =>
        cr.any fun r => isInfixB r.pattern kv.1) = true
    · rw [if_pos hch]
      by_cases hk : ((decodePairs q).filter fun kv =>
          !cr.any fun r => isInfixB r.pattern kv.1) ≠ []
      · rw [if_pos hk]
        dsimp only
        intro heq
        exact encodePairs_ne_nil _ hk (Option.some.inj heq)
      · rw [if_neg hk]
        simp
    · rw [if_neg hch]
      dsimp only
      rw [hq]
      exact hq ▸ h

theorem aggressivePass_query_ne_empty (u : Url)
    (h : u.query ≠ some []) : (aggressivePass u).1.query ≠ some [] := by
  rw [aggressivePass]
  cases hq : u.query with
  | none =>
    dsimp only
    rw [hq]
    simp
  | some q =>
    dsimp only
    by_cases hch : ((decodePairs q).any fun kv =>
        aggressiveTrackers.any fun t => decide (t = kv.1)) = true
    · rw [if_pos hch]
      by_cases hk : ((decodePairs q).filter fun kv =>
          !aggressiveTrackers.any fun t => decide (t = kv.1)) ≠ []
      · rw [if_pos hk]
        dsimp only
        intro heq
        exact encodePairs_ne_nil _ hk (Option.some.inj heq)
      · rw [if_neg hk]
        simp
    · rw [if_neg hch]
      dsimp only
      rw [hq]
      exact hq ▸ h

theorem processQuery_query_ne_empty (recf : Url → Url × Bool)
    (p : CompiledProvider) (st : PassState)
    (h : st.url.query ≠ some []) :
    (processQuery recf p st).url.query ≠ some [] := by
  rw [processQuery]
  cases hq : st.url.query with
  | none =>
    dsimp only
    rw [hq]
    simp
  | some q =>
    dsimp only
    by_cases hrem : ((decodePairs q).foldl (queryStep recf p)
        ([], false, false)).2.1 = true
    · rw [if_pos hrem]
      dsimp only
      by_cases hk : ((decodePairs q).foldl (queryStep recf p)
          ([], false, false)).1 ≠ []
      · rw [if_pos hk]
        intro heq
        exact encodePairs_ne_nil _ hk (Option.some.inj heq)
      · rw [if_neg hk]
        simp
    · rw [if_neg hrem]
      dsimp only
      rw [hq]
      exact hq ▸ h

theorem joinChar_cons₂ (c : Char) (p q : Str) (ps : List Str) :
    joinChar c (p :: q :: ps) = p ++ c :: joinChar c (q :: ps) := rfl

/-! ## Claim theorems -/

/-- C1: the spec says a matching redirection rule replaces the whole URL
with the URL-decoded contents of capture group 1, so that Example 5
(`https://redir.test/go?u=https%3A%2F%2Ftarget.test%2F%3Futm_source%3Dx`)
resolves to `https://target.test/?utm_source=x` and then to
`https://target.test/`. The code instead parses the raw, still
percent-encoded capture, which fails `Url::parse`; the decoded capture
would parse, but the redirection is skipped, and the engine returns the
URL unchanged (while still reporting it as cleaned). -/
theorem c1_redirection_capture_not_decoded :
    decodeStr (exRedirInput.drop 24) =
      "https://target.test/?utm_source=x".data ∧
    Url.parse (exRedirInput.drop 24) = none ∧
    (Url.parse "https://target.test/?utm_source=x".data).isSome = true ∧
    sanitize [redirProvider, genericProvider] 5 exRedirInput [] [] =
      some (exRedirInput, "redir".data) := by
  refine ⟨by decide, by decide, by decide, by decide⟩

/-- C2 counterexample: provider B strips `sid` from
`http://a.test/?sid=1&x=2`, leaving `http://a.test/?x=2`; provider A has
an exception matching exactly `http://a.test/?x=2` yet still strips `x`
in the same pass, because the exception is checked against the pass-start
serialization, not the current URL. -/
theorem c2_counterexample :
    (runPass (fun v => cleanUrlInPlace [provB, provA] 5 v) [provB]
        exC2Url.toStr ⟨exC2Url, false, false⟩).url =
      (⟨"http".data, "a.test".data, "/".data, some "x=2".data, none⟩ :
        Url) ∧
    (provA.exceptions.any fun e => e.is_match
      (⟨"http".data, "a.test".data, "/".data, some "x=2".data, none⟩ :
        Url).toStr) = true ∧
    (runPass (fun v => cleanUrlInPlace [provB, provA] 5 v) [provB, provA]
        exC2Url.toStr ⟨exC2Url, false, false⟩).url =
      (⟨"http".data, "a.test".data, "/".data, none, none⟩ : Url) := by
  refine ⟨by decide, by decide, by decide⟩

/-- C2 (amended): the exception check is evaluated per pass against the
URL as serialized at the start of that pass; whenever a provider's
exceptions match that serialization, the provider applies none of its
rules, redirections, raw rules or referral-marketing rules in that pass,
and the other providers still run — the pass over the provider list with
the excepted provider is the same as the pass without it. -/
theorem c2_exception_skips_provider (recf : Url → Url × Bool)
    (urlStr : Str) (st : PassState) (l₁ : List CompiledProvider)
    (p : CompiledProvider) (l₂ : List CompiledProvider)
    (h : (p.exceptions.any fun e => e.is_match urlStr) = true) :
    processProviderStep recf urlStr st p = st ∧
    runPass recf (l₁ ++ p :: l₂) urlStr st =
      runPass recf (l₁ ++ l₂) urlStr st :=
  ⟨processProviderStep_exception recf urlStr st p h,
    runPass_exception_skip recf urlStr st l₁ p l₂ h⟩

/-- C2 witness: provider A on its excepted URL changes nothing. -/
theorem c2_witness :
    processProviderStep (fun v => (v, false)) "http://a.test/?x=2".data
      ⟨exC2Url, false, false⟩ provA = ⟨exC2Url, false, false⟩ :=
  (c2_exception_skips_provider (fun v => (v, false))
    "http://a.test/?x=2".data ⟨exC2Url, false, false⟩ [] provA []
    (by decide)).1

/-- C3 counterexample: with the generic `utm_*` provider, sanitizing
`https://a.test/?next=http://b.test/?utm_source=1` reports a change (the
nested value is cleaned recursively, but the rewritten query is discarded
because no parameter was removed) and returns the input unchanged; the
claim then requires the second call on the returned string to be `None`,
but it returns `Some` again. -/
theorem c3_counterexample :
    sanitize [genericProvider] 2 exC3Input [] [] =
      some (exC3Input, "generic".data) ∧
    sanitize [genericProvider] 2 exC3Input [] [] ≠ none := by
  refine ⟨by decide, by decide⟩

/-- C3 (amended): idempotence holds for the provider-independent passes:
with an empty provider snapshot, if `sanitize` returns a cleaned string,
sanitizing that string again returns `None`. With a nonempty snapshot the
claim fails (see the counterexample): `clean_url_in_place` may report a
change without modifying the URL, so the second call reports it again. -/
theorem c3_sanitize_idempotent_empty_snapshot (fuel fuel₂ : Nat)
    (text : Str) (custom : List CustomRule) (ignored : List Str)
    (c label : Str)
    (h : sanitize [] fuel text custom ignored = some (c, label)) :
    sanitize [] fuel₂ c custom ignored = none :=
  sanitize_nil_idem fuel fuel₂ text custom ignored c label h

/-- C3 witness: the cleaned form of Example 3 sanitizes to `None`. -/
theorem c3_witness :
    sanitize [] 1 "https://site.test/?q=1".data
      [⟨0, 0, "track".data⟩] [] = none :=
  c3_sanitize_idempotent_empty_snapshot 1 1
    "https://site.test/?tracking_id=9&q=1".data
    [⟨0, 0, "track".data⟩] [] "https://site.test/?q=1".data
    "Custom/Other".data (by decide)

/-- C4: the outer loop of `clean_url_in_place` executes at most 5
iterations for every provider set and URL (the count component of
`cleanLoop` is the number of executed passes), and when a full pass
changes nothing the loop stops after that single pass, before the cap. -/
theorem c4_bounded_convergence (recf : Url → Url × Bool)
    (providers : List CompiledProvider) (url : Url) (changed : Bool) :
    (cleanLoop recf providers 5 url changed).2.2 ≤ 5 ∧
    ((runPass recf providers url.toStr ⟨url, changed, false⟩).iterChanged =
        false →
      (cleanLoop recf providers 5 url changed).2.2 = 1) := by
  constructor
  · exact cleanLoop_count_le recf providers 5 url changed
  · intro h
    rw [show (5 : Nat) = 4 + 1 from rfl,
      cleanLoop_stops recf providers 4 url changed h]

/-- C4 witness: with no providers a pass changes nothing, so exactly one
pass runs. -/
theorem c4_witness :
    (cleanLoop (fun v => (v, false)) [] 5 exC2Url false).2.2 = 1 :=
  (c4_bounded_convergence (fun v => (v, false)) [] exC2Url false).2
    (by decide)

/-- C5: if the parsed host of the (normalized) input contains any entry
of `ignored_domains` as a substring, `sanitize` returns `None` regardless
of providers, custom rules, the GitHub case or the fallback list; the
check precedes all rewriting. -/
theorem c5_ignored_domains_absolute (providers : List CompiledProvider)
    (fuel : Nat) (text : Str) (custom : List CustomRule)
    (ignored : List Str) (u : Url)
    (hparse : Url.parse (if !isInfixB "://".data text &&
        !isPrefixB "mailto:".data text then "http://".data ++ text
      else text) = some u)
    (hig : (ignored.any fun d => isInfixB d u.host) = true) :
    sanitize providers fuel text custom ignored = none := by
  rw [sanitize]
  dsimp only
  rw [hparse]
  dsimp only
  rw [if_pos hig]

/-- C5 witness: a host containing an ignored substring is not sanitized. -/
theorem c5_witness :
    sanitize [genericProvider] 3 "https://spam.example/page?utm_source=1".data
      [] ["spam".data] = none :=
  c5_ignored_domains_absolute [genericProvider] 3
    "https://spam.example/page?utm_source=1".data [] ["spam".data]
    ⟨"https".data, "spam.example".data, "/page".data,
      some "utm_source=1".data, none⟩ (by decide) (by decide)

/-- C6: a query parameter whose decoded name contains a custom rule
pattern as a substring never survives the custom pass (independently of
any provider), and Example 3 holds end to end: with an empty provider
set, custom pattern `track` turns `https://site.test/?tracking_id=9&q=1`
into `https://site.test/?q=1` with label `Custom/Other`. -/
theorem c6_custom_rule_precedence :
    (∀ (custom : List CustomRule) (u : Url) (q k v q₂ : Str),
      u.query = some q → (k, v) ∈ decodePairs q →
      (custom.any fun r => isInfixB r.pattern k) = true →
      (applyCustomRules custom u).1.query = some q₂ →
      k ∉ (decodePairs q₂).map Prod.fst) ∧
    sanitize [] 1 "https://site.test/?tracking_id=9&q=1".data
        [⟨0, 0, "track".data⟩] [] =
      some ("https://site.test/?q=1".data, "Custom/Other".data) := by
  constructor
  · intro custom u q k v q₂ hq hkv hmatch hq₂ hmem
    obtain ⟨⟨k₂, v₂⟩, hkv₂, hk₂⟩ := List.mem_map.mp hmem
    have hpost := applyCustomRules_post custom u q₂ hq₂ (k₂, v₂) hkv₂
    dsimp only at hk₂ hpost
    rw [hk₂] at hpost
    rw [hpost] at hmatch
    exact absurd hmatch (by simp)
  · decide

/-- C6 witness: `tracking_id` is absent from the resulting query pairs. -/
theorem c6_witness :
    "tracking_id".data ∉ (decodePairs "q=1".data).map Prod.fst :=
  c6_custom_rule_precedence.1 [⟨0, 0, "track".data⟩]
    ⟨"https".data, "site.test".data, "/".data,
      some "tracking_id=9&q=1".data, none⟩
    "tracking_id=9&q=1".data "tracking_id".data "9".data "q=1".data
    rfl (by decide) (by decide) (by decide)

/-- C7: on host exactly `github.com` with more than two path segments,
`clean_github_url` truncates the path to `/owner/repo` and drops query
and fragment; Example 2 holds end to end through `sanitize`. -/
theorem c7_github_repo_root :
    (∀ (u : Url) (o r c : Str) (cs : List Str),
      u.host = "github.com".data → u.pathSegments = o :: r :: c :: cs →
      cleanGithubUrl u = ({ u with
        path := '/' :: (o ++ '/' :: r),
        query := none, fragment := none }, true)) ∧
    sanitize [] 1
        "https://github.com/owner/repo/blob/main/file.ext?x=1#frag".data
        [] [] =
      some ("https://github.com/owner/repo".data,
        "GitHub (Repo Root)".data) := by
  constructor
  · intro u o r c cs hg hseg
    have hjoin : u.path.drop 1 = joinChar '/' (o :: r :: c :: cs) := by
      rw [← joinChar_splitChar '/' (u.path.drop 1),
        show splitChar '/' (u.path.drop 1) = u.pathSegments from rfl, hseg]
    have hne : u.path ≠ '/' :: (o ++ '/' :: r) := by
      intro he
      have hdrop : u.path.drop 1 = o ++ '/' :: r := by rw [he]; rfl
      rw [hdrop, joinChar_cons₂, joinChar_cons₂] at hjoin
      have hcanc := List.append_cancel_left hjoin
      have htail : r = r ++ '/' :: joinChar '/' (c :: cs) :=
        List.cons_injective hcanc
      have hlen := congrArg List.length htail
      simp at hlen
    rw [cleanGithubUrl, if_pos hg, hseg]
    dsimp only
    rw [if_pos hne]
  · decide

/-- C7 witness: the Example 2 URL record is truncated to the repo root. -/
theorem c7_witness :
    cleanGithubUrl ⟨"https".data, "github.com".data,
        "/owner/repo/blob/main/file.ext".data, some "x=1".data,
        some "frag".data⟩ =
      (⟨"https".data, "github.com".data, "/owner/repo".data, none, none⟩,
        true) :=
  c7_github_repo_root.1
    ⟨"https".data, "github.com".data,
      "/owner/repo/blob/main/file.ext".data, some "x=1".data,
      some "frag".data⟩
    "owner".data "repo".data "blob".data ["main".data, "file.ext".data]
    rfl (by decide)

/-- C8: if the fetch fails or the fetched document does not parse as a
ClearURLs ruleset, `refresh` returns an error and the provider store is
unchanged; the store is replaced only when a full new provider list has
been compiled, and then it is exactly that compiled list. -/
theorem c8_refresh_atomicity (rc : Str → Option CRegex)
    (parseDoc : Str → Option ClearUrlsData) (fetched : Except String Str)
    (store : List CompiledProvider) :
    (∀ e, (refresh rc parseDoc fetched store).1 = Except.error e →
      (refresh rc parseDoc fetched store).2 = store) ∧
    ((refresh rc parseDoc fetched store).1 = Except.ok () →
      ∃ body data, fetched = Except.ok body ∧ parseDoc body = some data ∧
        (refresh rc parseDoc fetched store).2 = compileProviders rc data) := by
  cases fetched with
  | error e =>
    exact ⟨fun _ _ => rfl, fun h => absurd h (by simp [refresh])⟩
  | ok body =>
    cases hpd : parseDoc body with
    | none =>
      constructor
      · intro e he
        simp [refresh, hpd]
      · intro h
        rw [refresh] at h
        rw [hpd] at h
        exact absurd h (by simp)
    | some data =>
      constructor
      · intro e he
        rw [refresh] at he
        rw [hpd] at he
        exact absurd he (by simp)
      · intro _
        refine ⟨body, data, rfl, hpd, ?_⟩
        rw [refresh]
        rw [hpd]

/-- C8 witness: a failed fetch leaves the store untouched. -/
theorem c8_witness :
    (refresh (fun _ => none) (fun _ => none)
      (Except.error "net down") [genericProvider]).2 = [genericProvider] :=
  (c8_refresh_atomicity (fun _ => none) (fun _ => none)
    (Except.error "net down") [genericProvider]).1 "net down" rfl

/-- C9: none of the three query-filtering passes (custom rules,
aggressive fallback, per-provider parameter filtering) can turn the query
into `Some ""`: when everything is removed the query becomes `None`, so a
cleaned URL never ends in a bare `?`. -/
theorem c9_no_dangling_empty_query :
    (∀ (cr : List CustomRule) (u : Url), u.query ≠ some [] →
      (applyCustomRules cr u).1.query ≠ some []) ∧
    (∀ u : Url, u.query ≠ some [] →
      (aggressivePass u).1.query ≠ some []) ∧
    (∀ (recf : Url → Url × Bool) (p : CompiledProvider) (st : PassState),
      st.url.query ≠ some [] →
      (processQuery recf p st).url.query ≠ some []) :=
  ⟨applyCustomRules_query_ne_empty, aggressivePass_query_ne_empty,
    processQuery_query_ne_empty⟩

/-- C9 witness: removing `tracking_id` from Example 3 leaves a nonempty
query, not `Some ""`. -/
theorem c9_witness :
    (applyCustomRules [⟨0, 0, "track".data⟩]
      ⟨"https".data, "site.test".data, "/".data,
        some "tracking_id=9&q=1".data, none⟩).1.query ≠ some [] :=
  c9_no_dangling_empty_query.1 [⟨0, 0, "track".data⟩]
    ⟨"https".data, "site.test".data, "/".data,
      some "tracking_id=9&q=1".data, none⟩ (by decide)
